import Mathlib

/-!
Verification of the tabbed terminal text editor (the notepad embedded in
`terminal_clock.py`).  Strings are modelled as `List Char`, lists as `List`,
Python `int` as `Int` (or `Nat` where the code keeps the value non-negative),
and the file system / regex engine / curses layer as explicit parameters.
-/

set_option maxRecDepth 4000

/-- Python's lowercase terminators recognised by `str.splitlines`. -/
def lineTermChars : List Char :=
  [Char.ofNat 10, Char.ofNat 13, Char.ofNat 11, Char.ofNat 12,
   Char.ofNat 0x1c, Char.ofNat 0x1d, Char.ofNat 0x1e, Char.ofNat 0x85,
   Char.ofNat 0x2028, Char.ofNat 0x2029]

/-- A character is a line terminator for `str.splitlines`. -/
def isLineTerm (c : Char) : Bool := c ∈ lineTermChars

/-- ASCII lowercasing, the fragment of Python `str.lower` reachable from the
editor (the prompt only ever feeds printable ASCII into queries). -/
def pyLower (c : Char) : Char :=
  if 'A' ≤ c ∧ c ≤ 'Z' then Char.ofNat (c.toNat + 32) else c

/-- Worker for `pySplitlines`: accumulates the current line (reversed) and
splits at terminators, treating a `"\r\n"` pair as a single terminator, and a
trailing terminator as closing the last line (no trailing empty line). -/
def splitAux : List Char → List Char → List (List Char)
  | [], cur => [cur.reverse]
  | c :: rest, cur =>
    if c = '\r' then
      match rest with
      | [] => [cur.reverse]
      | d :: rest2 =>
        if d = '\n' then
          match rest2 with
          | [] => [cur.reverse]
          | _ :: _ => cur.reverse :: splitAux rest2 []
        else cur.reverse :: splitAux (d :: rest2) []
    else if isLineTerm c then
      match rest with
      | [] => [cur.reverse]
      | _ :: _ => cur.reverse :: splitAux rest []
    else splitAux rest (c :: cur)

/-- Python `str.splitlines` on a string modelled as a character list. -/
def pySplitlines (s : List Char) : List (List Char) :=
  match s with
  | [] => []
  | _ :: _ => splitAux s []

/-- Python `'\n'.join(lines)`, the payload written by `save_file`. -/
def saveContent : List (List Char) → List Char
  | [] => []
  | [l] => l
  | l :: l2 :: rest => l ++ '\n' :: saveContent (l2 :: rest)

/-- The extension-to-file-type table of `SyntaxHighlighter.get_file_type`. -/
def extTable : List (List Char × String) :=
  [(".py".data, "python"), (".js".data, "javascript"),
   (".c".data, "c"), (".h".data, "c"), (".cpp".data, "c"), (".hpp".data, "c"),
   (".html".data, "html"), (".htm".data, "html"),
   (".css".data, "css"), (".md".data, "markdown"), (".markdown".data, "markdown")]

/-- Association-list lookup, mirroring Python `dict.get`. -/
def assocLookup {β : Type} [DecidableEq β] (k : β) : List (β × α) → Option α
  | [] => none
  | (k', v) :: rest => if k = k' then some v else assocLookup k rest

/-- The (lowercased) extension of a filename: the suffix from the final dot,
`[]` when there is no dot (`os.path.splitext` as used on the editor's plain
file names). -/
def extOf (name : List Char) : List Char :=
  if '.' ∈ name then
    '.' :: ((name.reverse.takeWhile (fun c => ¬ c = '.')).reverse.map pyLower)
  else []

/-- `SyntaxHighlighter.get_file_type`: map a filename to a highlighter rule
set name, defaulting to `"text"`. -/
def get_file_type (filename : List Char) : String :=
  if filename = [] then "text"
  else (assocLookup (extOf filename) extTable).getD "text"

/-- The per-tab document model of class `TextBuffer`. -/
structure TextBuffer where
  filename : Option (List Char)
  lines : List (List Char)
  cursor_x : Nat
  cursor_y : Nat
  scroll_y : Int
  modified : Bool
  file_type : String
deriving Repr, DecidableEq

/-- The line under the cursor, `self.lines[self.cursor_y]`. -/
def TextBuffer.curLine (b : TextBuffer) : List Char :=
  b.lines.getD b.cursor_y []

/-- `TextBuffer.insert_char`: splice a character into the current line at the
cursor and advance the cursor. -/
def TextBuffer.insert_char (b : TextBuffer) (ch : Char) : TextBuffer :=
  { b with
    lines := b.lines.set b.cursor_y (b.curLine.take b.cursor_x ++ [ch] ++ b.curLine.drop b.cursor_x)
    cursor_x := b.cursor_x + 1
    modified := true }

/-- `TextBuffer.delete_char` (backspace): delete left of the cursor, or merge
with the previous line at a line start; no-op at the document start. -/
def TextBuffer.delete_char (b : TextBuffer) : TextBuffer :=
  if b.cursor_x > 0 then
    { b with
      lines := b.lines.set b.cursor_y (b.curLine.take (b.cursor_x - 1) ++ b.curLine.drop b.cursor_x)
      cursor_x := b.cursor_x - 1
      modified := true }
  else if b.cursor_y > 0 then
    { b with
      cursor_x := (b.lines.getD (b.cursor_y - 1) []).length
      lines := (b.lines.set (b.cursor_y - 1)
                  ((b.lines.getD (b.cursor_y - 1) []) ++ b.curLine)).eraseIdx b.cursor_y
      cursor_y := b.cursor_y - 1
      modified := true }
  else b

/-- `TextBuffer.delete_forward` (delete key): delete under the cursor, or
merge the next line in at a line end; no-op at the document end. -/
def TextBuffer.delete_forward (b : TextBuffer) : TextBuffer :=
  if b.cursor_x < b.curLine.length then
    { b with
      lines := b.lines.set b.cursor_y (b.curLine.take b.cursor_x ++ b.curLine.drop (b.cursor_x + 1))
      modified := true }
  else if b.cursor_y < b.lines.length - 1 then
    { b with
      lines := (b.lines.set b.cursor_y (b.curLine ++ b.lines.getD (b.cursor_y + 1) [])).eraseIdx
                 (b.cursor_y + 1)
      modified := true }
  else b

/-- `TextBuffer.insert_newline`: split the current line at the cursor; the
cursor moves to column 0 of the new line. -/
def TextBuffer.insert_newline (b : TextBuffer) : TextBuffer :=
  { b with
    lines := (b.lines.set b.cursor_y (b.curLine.take b.cursor_x)).insertIdx (b.cursor_y + 1)
               (b.curLine.drop b.cursor_x)
    cursor_y := b.cursor_y + 1
    cursor_x := 0
    modified := true }

/-- `TextBuffer.move_cursor`: clamp the target row into the line range and the
target column into the target line, then follow with the scroll window. -/
def TextBuffer.move_cursor (b : TextBuffer) (dx dy _max_x max_y : Int) : TextBuffer :=
  let new_y : Nat := (max 0 (min ((b.lines.length : Int) - 1) ((b.cursor_y : Int) + dy))).toNat
  let new_x : Nat :=
    (max 0 (min (((b.lines.getD new_y []).length : Int)) ((b.cursor_x : Int) + dx))).toNat
  let scr : Int :=
    if (new_y : Int) < b.scroll_y then (new_y : Int)
    else if (new_y : Int) ≥ b.scroll_y + max_y then (new_y : Int) - max_y + 1
    else b.scroll_y
  { b with cursor_y := new_y, cursor_x := new_x, scroll_y := scr }

/-- `TextBuffer.goto_line`: clamp the 1-based target into range, set column 0
and centre the viewport when possible. -/
def TextBuffer.goto_line (b : TextBuffer) (line_num max_y : Int) : TextBuffer :=
  let target : Nat := (max 0 (min ((b.lines.length : Int) - 1) (line_num - 1))).toNat
  { b with
    cursor_y := target
    cursor_x := 0
    scroll_y :=
      if (target : Int) ≥ max_y.fdiv 2 then max 0 ((target : Int) - max_y.fdiv 2) else 0 }

/-- `TextBuffer.load_file`: on a successful read, replace `lines` by the
split content (an empty file gives one empty line) and clear `modified`; on a
read failure, replace `lines` by a one-line error message.  The outcome of
the external `open`/`read` is passed in as `readResult`. -/
def TextBuffer.load_file (b : TextBuffer) (readResult : Except (List Char) (List Char)) :
    TextBuffer :=
  match readResult with
  | Except.ok content =>
    { b with
      lines :=
        (fun ls => if ls = [] then [[]] else ls)
          (if content ≠ [] then pySplitlines content else [[]])
      modified := false }
  | Except.error msg => { b with lines := ["Error loading file: ".data ++ msg] }

/-- `TextBuffer.save_file`: optionally rebind `filename` (re-deriving
`file_type`), fail when no filename is available, otherwise write
`'\n'.join(lines)`; the success of the external write is passed in as
`writeOk`.  Returns the updated buffer and the method's boolean result. -/
def TextBuffer.save_file (b : TextBuffer) (fnArg : Option (List Char)) (writeOk : Bool) :
    TextBuffer × Bool :=
  let b1 := match fnArg with
    | some f => { b with filename := some f, file_type := get_file_type f }
    | none => b
  match b1.filename with
  | none => (b1, false)
  | some _ => if writeOk then ({ b1 with modified := false }, true) else (b1, false)

/-- The buffer well-formedness invariant: `lines` non-empty, the cursor row in
range, and the cursor column at most the current line's length. -/
def TextBuffer.WF (b : TextBuffer) : Prop :=
  b.lines ≠ [] ∧ b.cursor_y < b.lines.length ∧ b.cursor_x ≤ b.curLine.length

instance (b : TextBuffer) : Decidable b.WF := by
  unfold TextBuffer.WF; infer_instance

/-- Rule-set availability: the file types with an entry in
`SyntaxHighlighter.patterns`. -/
def hasRules (ft : String) : Bool :=
  ft ∈ (["python", "javascript", "c", "html", "css", "markdown"] : List String)

/-- A regex match span `(match.start(), match.end(), color)` as collected by
`highlight_line` from `re.finditer`. -/
abbrev Span := Nat × Nat × Nat

/-- `matches.sort(key=lambda x: x[0])`: a stable sort by start offset. -/
def sortSpans (ms : List Span) : List Span :=
  List.insertionSort (fun a b => a.1 ≤ b.1) ms

/-- The overlap test of `highlight_line`: a candidate is dropped when its
start lies inside an already-accepted span. -/
def keepSpan (acc : List Span) (m : Span) : Bool :=
  ! acc.any (fun f => decide (f.1 ≤ m.1) && decide (m.1 < f.2.1))

/-- The accumulator loop building `filtered` in `highlight_line`. -/
def filterGo (acc : List Span) : List Span → List Span
  | [] => acc
  | m :: rest => if keepSpan acc m then filterGo (acc ++ [m]) rest else filterGo acc rest

/-- Remove overlapping spans, first (earliest-start) wins. -/
def filterSpans (ms : List Span) : List Span := filterGo [] ms

/-- The result-building loop of `highlight_line`: untagged gap slices between
accepted spans, tagged slices for the spans, and a final untagged tail. -/
def buildResult (line : List Char) (pos : Nat) : List Span → List (List Char × Nat)
  | [] => if pos < line.length then [(line.drop pos, 0)] else []
  | (s, e, c) :: rest =>
    (if pos < s then [((line.take s).drop pos, 0)] else []) ++
      ((line.take e).drop s, c) :: buildResult line e rest

/-- `SyntaxHighlighter.highlight_line`, with the spans found by
`re.finditer` over all the file type's patterns passed in as `ms`. -/
def highlight_line (line : List Char) (ft : String) (ms : List Span) :
    List (List Char × Nat) :=
  if hasRules ft then
    let r := buildResult line 0 (filterSpans (sortSpans ms))
    if r = [] then [(line, 0)] else r
  else [(line, 0)]

/-- Concatenation of the text slices of a highlight result. -/
def concatTexts (segs : List (List Char × Nat)) : List Char :=
  (segs.map Prod.fst).flatten

/-- Python `search_line[i:i+len(pattern)] == pattern`: an occurrence of
`pat` at offset `i` of `s`. -/
def occAt (s pat : List Char) (i : Nat) : Bool :=
  decide (i + pat.length ≤ s.length) && ((s.drop i).take pat.length == pat)

/-- Python `str.find(pattern, pos)`: the least offset `≥ pos` at which `pat`
occurs in `s`, `none` for `-1`. -/
def findFrom (s pat : List Char) (pos : Nat) : Option Nat :=
  ((List.range (s.length + 1)).filter (fun i => decide (pos ≤ i) && occAt s pat i)).head?

/-- The `while True: pos = find(...); matches.append(...); pos += 1` loop of
`SearchManager.search`, with step-counting fuel. -/
def scanAux (s pat : List Char) : Nat → Nat → List Nat
  | 0, _ => []
  | fuel + 1, pos =>
    match findFrom s pat pos with
    | none => []
    | some p => p :: scanAux s pat fuel (p + 1)

/-- All hit offsets the scan loop collects in one line, in scan order. -/
def scanLine (s pat : List Char) : List Nat := scanAux s pat (s.length + 1) 0

/-- The `for line_num, line in enumerate(lines)` loop of
`SearchManager.search`, carrying the running line index. -/
def searchFrom (pat : List Char) (cs : Bool) (qlen : Nat) :
    Nat → List (List Char) → List (Nat × Nat × Nat)
  | _, [] => []
  | n, line :: rest =>
    (scanLine (if cs then line else line.map pyLower) pat).map (fun p => (n, p, p + qlen)) ++
      searchFrom pat cs qlen (n + 1) rest

/-- The match list rebuilt by `SearchManager.search`. -/
def searchMatches (lines : List (List Char)) (query : List Char) (cs : Bool) :
    List (Nat × Nat × Nat) :=
  if query = [] then []
  else searchFrom (if cs then query else query.map pyLower) cs query.length 0 lines

/-- The stateful search component, class `SearchManager`. -/
structure SearchManager where
  query : List Char
  matches' : List (Nat × Nat × Nat)
  current_match : Int
  case_sensitive : Bool
deriving Repr, DecidableEq

/-- `SearchManager.__init__`. -/
def SearchManager.init : SearchManager := ⟨[], [], -1, false⟩

/-- `SearchManager.search` as a state transformer. -/
def SearchManager.search (sm : SearchManager) (lines : List (List Char))
    (query : List Char) (cs : Bool) : SearchManager :=
  { sm with query := query, case_sensitive := cs, matches' := searchMatches lines query cs }

/-- The loop test of `SearchManager.next_match`:
`line > current_line or (line == current_line and start > current_col)`. -/
def strictAfter (cl cc : Nat) (m : Nat × Nat × Nat) : Bool :=
  decide (cl < m.1) || (decide (m.1 = cl) && decide (cc < m.2.1))

/-- The `for i, (line, start, end) in enumerate(self.matches)` loop of
`next_match`, returning the hit's index and `(line, start)`. -/
def nmAux (cl cc : Nat) : Nat → List (Nat × Nat × Nat) → Option (Nat × Nat × Nat)
  | _, [] => none
  | i, m :: rest =>
    if strictAfter cl cc m then some (i, m.1, m.2.1) else nmAux cl cc (i + 1) rest

/-- `SearchManager.next_match`: the first match strictly after the given
position, else wrap to the head of the match list; `none` when there are no
matches.  Returns the updated manager and the method's return value. -/
def SearchManager.next_match (sm : SearchManager) (cl cc : Nat) :
    SearchManager × Option (Nat × Nat) :=
  match sm.matches' with
  | [] => (sm, none)
  | m0 :: _ =>
    match nmAux cl cc 0 sm.matches' with
    | some (i, l, s) => ({ sm with current_match := (i : Int) }, some (l, s))
    | none => ({ sm with current_match := 0 }, some (m0.1, m0.2.1))

/-- Spec-side: every offset at which `pat` occurs in `s`, in increasing
order (overlapping occurrences included). -/
def occurrences (s pat : List Char) : List Nat :=
  (List.range (s.length + 1)).filter (occAt s pat)

/-- Spec-side: "scanning every line for every (possibly overlapping)
occurrence of `query`, ordered by `(line, start)`" — the match list the spec
describes, written directly as an enumeration in document order. -/
def searchSpec (lines : List (List Char)) (query : List Char) (cs : Bool) :
    List (Nat × Nat × Nat) :=
  if query = [] then []
  else
    (List.range lines.length).flatMap (fun i =>
      (occurrences (if cs then lines.getD i [] else (lines.getD i []).map pyLower)
          (if cs then query else query.map pyLower)).map
        (fun p => (i, p, p + query.length)))

/-- Document order on `(line, start, end)` triples. -/
def docLt (a b : Nat × Nat × Nat) : Prop :=
  a.1 < b.1 ∨ (a.1 = b.1 ∧ a.2.1 < b.2.1)

/-- The three palettes of `Theme.__init__`, in registration order, with the
curses colour constants (BLACK 0, RED 1, GREEN 2, YELLOW 3, BLUE 4,
MAGENTA 5, CYAN 6, WHITE 7) as `(fg, bg)` pairs. -/
def cursesThemes : List (String × List (String × Nat × Nat)) :=
  [("default",
    [("tab_bar", 0, 6), ("active_tab", 0, 7), ("status_bar", 0, 6), ("text", 7, 0),
     ("keyword", 3, 0), ("comment", 2, 0), ("string", 5, 0), ("number", 6, 0),
     ("special", 1, 0), ("search_highlight", 0, 3)]),
   ("dark",
    [("tab_bar", 7, 0), ("active_tab", 0, 7), ("status_bar", 7, 0), ("text", 7, 0),
     ("keyword", 4, 0), ("comment", 2, 0), ("string", 1, 0), ("number", 6, 0),
     ("special", 5, 0), ("search_highlight", 0, 3)]),
   ("light",
    [("tab_bar", 0, 7), ("active_tab", 7, 0), ("status_bar", 0, 7), ("text", 0, 7),
     ("keyword", 4, 7), ("comment", 2, 7), ("string", 1, 7), ("number", 5, 7),
     ("special", 6, 7), ("search_highlight", 7, 4)])]

/-- The element tags every palette maps (the shared key order of the three
palette dicts). -/
def elementTags : List String :=
  ["tab_bar", "active_tab", "status_bar", "text", "keyword", "comment",
   "string", "number", "special", "search_highlight"]

/-- Inner loop of `Theme.init_colors`: assign consecutive pair numbers to one
palette's elements. -/
def assignPairs : Nat → List (String × Nat × Nat) → List (String × Nat)
  | _, [] => []
  | n, (el, _) :: rest => (el, n) :: assignPairs (n + 1) rest

/-- Outer loop of `Theme.init_colors` over the registered themes. -/
def assignThemes : Nat → List (String × List (String × Nat × Nat)) →
    List (String × List (String × Nat))
  | _, [] => []
  | n, (tn, els) :: rest => (tn, assignPairs n els) :: assignThemes (n + els.length) rest

/-- `self.color_pairs` as built by `Theme.init_colors` (`pair_num` starts
at 1). -/
def colorPairs : List (String × List (String × Nat)) := assignThemes 1 cursesThemes

/-- `Theme.get_color`: `self.color_pairs[self.current_theme].get(element, 0)`.
In the application `current_theme` is always a registered theme name. -/
def get_color (current_theme element : String) : Nat :=
  match assocLookup current_theme colorPairs with
  | some m => (assocLookup element m).getD 0
  | none => 0

/-- The tab-owning state of class `TerminalNotepad` relevant to the tab
lifecycle. -/
structure Session where
  tabs : List TextBuffer
  current_tab : Nat
deriving Repr, DecidableEq

/-- `TerminalNotepad.add_tab` (the constructed `TextBuffer` passed in). -/
def Session.add_tab (s : Session) (b : TextBuffer) : Session :=
  { s with tabs := s.tabs ++ [b], current_tab := (s.tabs ++ [b]).length - 1 }

/-- `TerminalNotepad.close_tab`: delete the active tab unless it is the last
one, then re-clamp the active index. -/
def Session.close_tab (s : Session) : Session :=
  if s.tabs.length > 1 then
    let tabs' := s.tabs.eraseIdx s.current_tab
    { s with
      tabs := tabs'
      current_tab := if s.current_tab ≥ tabs'.length then tabs'.length - 1 else s.current_tab }
  else s

/-- `TerminalNotepad.switch_tab`: cyclic move by `direction` (Python `%` on a
positive modulus is the non-negative Euclidean remainder). -/
def Session.switch_tab (s : Session) (direction : Int) : Session :=
  if s.tabs.length > 1 then
    { s with current_tab := ((((s.current_tab : Int) + direction)) % ((s.tabs.length : Int))).toNat }
  else s

/-- The session invariant: at least one tab, active index in range. -/
def Session.SInv (s : Session) : Prop :=
  1 ≤ s.tabs.length ∧ s.current_tab < s.tabs.length

instance (s : Session) : Decidable s.SInv := by
  unfold Session.SInv; infer_instance

/-- Python `int(line_str)` for the digit-only strings the goto prompt can
produce: fails exactly on the empty string. -/
def pyInt (s : List Char) : Option Int :=
  if s ≠ [] ∧ s.all Char.isDigit then
    some (s.foldl (fun acc c => acc * 10 + ((c.toNat : Int) - 48)) 0)
  else none

/-- The Enter branch of `TerminalNotepad.handle_goto`: parse the typed digits
and call `goto_line`; a `ValueError` (empty input) is silently passed. -/
def handle_goto_commit (b : TextBuffer) (line_str : List Char) (height : Int) : TextBuffer :=
  match pyInt line_str with
  | some n => b.goto_line n (height - 3)
  | none => b

/-- The Enter branch of `TerminalNotepad.handle_search`: run the search
(case-insensitive by default), jump to `next_match` from the cursor and
re-clamp/scroll via `move_cursor(0, 0, width, height - 3)`. -/
def handle_search_commit (sm : SearchManager) (b : TextBuffer) (query : List Char)
    (width height : Int) : SearchManager × TextBuffer :=
  if query ≠ [] then
    let sm1 := sm.search b.lines query false
    if sm1.matches' ≠ [] then
      match sm1.next_match b.cursor_y b.cursor_x with
      | (sm2, some r) =>
        (sm2, TextBuffer.move_cursor { b with cursor_y := r.1, cursor_x := r.2 } 0 0 width
          (height - 3))
      | (sm2, none) => (sm2, b)
    else (sm1, b)
  else (sm, b)

/-- Spec-side: the position `handle_search` jumps to — the first match in
list order strictly after the cursor, else (wrap) the head match. -/
def nextFromCursor (ms : List (Nat × Nat × Nat)) (cl cc : Nat) : Option (Nat × Nat) :=
  match ms.find? (strictAfter cl cc) with
  | some m => some (m.1, m.2.1)
  | none => ms.head?.map (fun m => (m.1, m.2.1))

/-- Spans valid for a line of length `len`, chained left to right from
position `pos`: each span starts no earlier than `pos` respectively the
previous span's end, and ends within the line. -/
def ChainValid (len : Nat) : Nat → List Span → Prop
  | _, [] => True
  | pos, m :: rest => pos ≤ m.1 ∧ m.1 ≤ m.2.1 ∧ m.2.1 ≤ len ∧ ChainValid len m.2.1 rest

instance spanStartLeTotal : IsTotal Span (fun a b => a.1 ≤ b.1) :=
  ⟨fun a b => Nat.le_total a.1 b.1⟩

instance spanStartLeTrans : IsTrans Span (fun a b => a.1 ≤ b.1) :=
  ⟨fun _ _ _ hab hbc => Nat.le_trans hab hbc⟩

/-- C10: the four editing mutators change none of `scroll_y`, `filename`,
`file_type`; consequently (closed instance, last conjunct) splitting the
bottom visible line with `insert_newline` under a one-row window leaves the
cursor row below `scroll_y + max_y`, i.e. outside the scroll window. -/
theorem edit_ops_frame (b : TextBuffer) (ch : Char) :
    ((b.insert_char ch).scroll_y = b.scroll_y ∧ (b.insert_char ch).filename = b.filename ∧
      (b.insert_char ch).file_type = b.file_type) ∧
    (b.delete_char.scroll_y = b.scroll_y ∧ b.delete_char.filename = b.filename ∧
      b.delete_char.file_type = b.file_type) ∧
    (b.delete_forward.scroll_y = b.scroll_y ∧ b.delete_forward.filename = b.filename ∧
      b.delete_forward.file_type = b.file_type) ∧
    (b.insert_newline.scroll_y = b.scroll_y ∧ b.insert_newline.filename = b.filename ∧
      b.insert_newline.file_type = b.file_type) ∧
    (((TextBuffer.insert_newline ⟨none, [['a']], 1, 0, 0, false, "text"⟩).scroll_y + 1 ≤
        ((TextBuffer.insert_newline ⟨none, [['a']], 1, 0, 0, false, "text"⟩).cursor_y : Int)) ∧
      (TextBuffer.insert_newline ⟨none, [['a']], 1, 0, 0, false, "text"⟩).scroll_y = 0) := by
  refine ⟨⟨rfl, rfl, rfl⟩, ?_, ?_, ⟨rfl, rfl, rfl⟩, by decide⟩
  · unfold TextBuffer.delete_char
    split_ifs <;> exact ⟨rfl, rfl, rfl⟩
  · unfold TextBuffer.delete_forward
    split_ifs <;> exact ⟨rfl, rfl, rfl⟩

/-- C9: session-level tab invariants: `add_tab`, `close_tab` and
`switch_tab` preserve "at least one tab, active index in range";
`close_tab` on a single tab is the identity; with `n ≥ 2` tabs it leaves
exactly `n - 1` tabs with the active index re-clamped into range. -/
theorem session_tab_invariants (s : Session) (b : TextBuffer) (d : Int) (h : s.SInv) :
    (s.add_tab b).SInv ∧ s.close_tab.SInv ∧ (s.switch_tab d).SInv ∧
    (s.tabs.length = 1 → s.close_tab = s) ∧
    (2 ≤ s.tabs.length →
      s.close_tab.tabs.length = s.tabs.length - 1 ∧
        s.close_tab.current_tab < s.close_tab.tabs.length) := by
  obtain ⟨h1, h2⟩ := h
  have herase : (s.tabs.eraseIdx s.current_tab).length = s.tabs.length - 1 :=
    List.length_eraseIdx_of_lt h2
  refine ⟨?_, ?_, ?_, ?_, ?_⟩
  · constructor <;> simp [Session.add_tab]
  · unfold Session.close_tab
    split_ifs with hl
    · constructor
      · simp only [herase]; omega
      · simp only [herase]; split_ifs <;> omega
    · exact ⟨h1, h2⟩
  · unfold Session.switch_tab
    split_ifs with hl
    · have hpos : (0 : Int) < (s.tabs.length : Int) := by exact_mod_cast Nat.lt_of_lt_of_le Nat.zero_lt_one h1
      have hmod := Int.emod_nonneg ((s.current_tab : Int) + d) (by omega : ((s.tabs.length : Int)) ≠ 0)
      have hlt := Int.emod_lt_of_pos ((s.current_tab : Int) + d) hpos
      refine ⟨h1, ?_⟩
      show ((((s.current_tab : Int) + d)) % ((s.tabs.length : Int))).toNat < s.tabs.length
      omega
    · exact ⟨h1, h2⟩
  · intro hone
    unfold Session.close_tab
    split_ifs with hl
    · omega
    · rfl
  · intro htwo
    unfold Session.close_tab
    split_ifs with hl
    · refine ⟨herase, ?_⟩
      simp only [herase]
      split_ifs <;> omega
    · omega

/-- Witness for `session_tab_invariants` at a concrete two-tab session. -/
theorem session_tab_invariants_witness :
    (Session.close_tab ⟨[⟨none, [[]], 0, 0, 0, false, "text"⟩,
        ⟨none, [['a']], 0, 0, 0, false, "text"⟩], 1⟩).tabs.length = 1 :=
  ((session_tab_invariants ⟨[⟨none, [[]], 0, 0, 0, false, "text"⟩,
        ⟨none, [['a']], 0, 0, 0, false, "text"⟩], 1⟩
      ⟨none, [[]], 0, 0, 0, false, "text"⟩ 1 (by decide)).2.2.2.2 (by decide)).1

/-- A key absent from an association list looks up to `none`. -/
theorem assocLookup_eq_none {α β : Type} [DecidableEq β] (k : β) (l : List (β × α))
    (h : k ∉ l.map Prod.fst) : assocLookup k l = none := by
  induction l with
  | nil => rfl
  | cons p rest ih =>
    obtain ⟨k', v⟩ := p
    simp only [List.map_cons, List.mem_cons] at h
    push_neg at h
    simp only [assocLookup, if_neg h.1]
    exact ih h.2

/-- A successful association-list lookup pairs the key with a stored value. -/
theorem assocLookup_mem {α β : Type} [DecidableEq β] {k : β} {l : List (β × α)} {v : α}
    (h : assocLookup k l = some v) : (k, v) ∈ l := by
  induction l with
  | nil => simp [assocLookup] at h
  | cons p rest ih =>
    obtain ⟨k', v'⟩ := p
    by_cases hk : k = k'
    · subst hk
      simp [assocLookup] at h
      exact h ▸ List.mem_cons_self _ _
    · simp only [assocLookup, if_neg hk] at h
      exact List.mem_cons_of_mem _ (ih h)

/-- C8 counterexample: in the `light` theme the unknown tag `bogus` gets
colour pair 0 (the terminal default pair), while the theme's body-text tag
`text` is pair 24 — so an unknown tag does NOT get the body-text colour. -/
theorem get_color_unknown_cex :
    get_color "light" "bogus" = 0 ∧ get_color "light" "text" = 24 ∧
      get_color "light" "bogus" ≠ get_color "light" "text" := by decide

/-- C8 amended: for any current theme, `get_color` on a tag outside the
palettes' shared key set never errors and returns colour pair 0 (the curses
default pair), not the palette's body-text pair. -/
theorem get_color_unknown_tag (th tag : String) (h : tag ∉ elementTags) :
    get_color th tag = 0 := by
  have key : ∀ m : List (String × Nat), m.map Prod.fst = elementTags →
      assocLookup tag m = none := by
    intro m hm
    exact assocLookup_eq_none tag m (by rw [hm]; exact h)
  unfold get_color
  cases hth : assocLookup th colorPairs with
  | none => rfl
  | some m =>
    have hmem := assocLookup_mem hth
    have hkeys : m.map Prod.fst = elementTags := by
      simp only [colorPairs, assignThemes, assignPairs, cursesThemes,
        List.mem_cons, List.not_mem_nil, or_false, Prod.mk.injEq] at hmem
      rcases hmem with ⟨-, rfl⟩ | ⟨-, rfl⟩ | ⟨-, rfl⟩ <;> rfl
    simp [key m hkeys]

/-- Witness for `get_color_unknown_tag` at the `default` theme and an
unknown tag. -/
theorem get_color_unknown_tag_witness : get_color "default" "divider" = 0 :=
  get_color_unknown_tag "default" "divider" (by decide)

/-- C7 counterexample: committing the goto prompt with the out-of-range
numeric input `0` on a well-formed 3-line buffer with cursor at `(2, 1)`
moves the cursor to `(0, 0)` — navigation DOES occur, the position is not
left unchanged. -/
theorem goto_out_of_range_cex :
    TextBuffer.WF ⟨none, [['a'], ['b'], ['c']], 1, 2, 0, false, "text"⟩ ∧
    pyInt "0".data = some 0 ∧
    (handle_goto_commit ⟨none, [['a'], ['b'], ['c']], 1, 2, 0, false, "text"⟩
        "0".data 24).cursor_y = 0 ∧
    (handle_goto_commit ⟨none, [['a'], ['b'], ['c']], 1, 2, 0, false, "text"⟩
        "0".data 24).cursor_x = 0 := by decide

/-- C7 amended: a goto commit with non-numeric (i.e. empty) input leaves the
buffer untouched, but numeric input ALWAYS navigates: the 1-based target is
clamped into the valid line range (0 for inputs `≤ 0`, the last line for
inputs beyond the line count) and the column is reset to 0. -/
theorem goto_commit_clamps (b : TextBuffer) (s : List Char) (ht : Int) :
    (pyInt s = none → handle_goto_commit b s ht = b) ∧
    (∀ n : Int, pyInt s = some n → b.lines ≠ [] →
      (n ≤ 0 → (handle_goto_commit b s ht).cursor_y = 0) ∧
      ((b.lines.length : Int) ≤ n →
        (handle_goto_commit b s ht).cursor_y = b.lines.length - 1) ∧
      (1 ≤ n → n ≤ (b.lines.length : Int) →
        ((handle_goto_commit b s ht).cursor_y : Int) = n - 1) ∧
      (handle_goto_commit b s ht).cursor_x = 0) := by
  constructor
  · intro hn
    unfold handle_goto_commit
    rw [hn]
  · intro n hn hne
    have hlen : 1 ≤ b.lines.length := by
      cases hb : b.lines with
      | nil => exact absurd hb hne
      | cons x xs => simp [hb]
    unfold handle_goto_commit
    rw [hn]
    unfold TextBuffer.goto_line
    refine ⟨?_, ?_, ?_, rfl⟩ <;>
      · intros
        simp only [Int.max_def, Int.min_def]
        split_ifs <;> omega

/-- Witness for `goto_commit_clamps`: input `"5"` on a 3-line buffer lands
on the last line (index 2). -/
theorem goto_commit_clamps_witness :
    (handle_goto_commit ⟨none, [['a'], ['b'], ['c']], 1, 2, 0, false, "text"⟩
        "5".data 24).cursor_y = 3 - 1 :=
  ((goto_commit_clamps ⟨none, [['a'], ['b'], ['c']], 1, 2, 0, false, "text"⟩
        "5".data 24).2 5 (by decide) (by decide)).2.1 (by decide)

/-- `getD` at a just-set index returns the new value. -/
theorem getD_set_self {α : Type} (l : List α) (i : Nat) (x d : α) (h : i < l.length) :
    (l.set i x).getD i d = x := by
  simp [List.getD_eq_getElem?_getD, List.getElem?_set_self h]

/-- `getD` at a different index ignores a `set`. -/
theorem getD_set_ne {α : Type} (l : List α) (i j : Nat) (x d : α) (h : i ≠ j) :
    (l.set i x).getD j d = l.getD j d := by
  simp [List.getD_eq_getElem?_getD, List.getElem?_set_ne h]

/-- `getD` below an erased index ignores the `eraseIdx`. -/
theorem getD_eraseIdx_lt {α : Type} (l : List α) (i j : Nat) (d : α) (h : j < i) :
    (l.eraseIdx i).getD j d = l.getD j d := by
  simp [List.getD_eq_getElem?_getD, List.getElem?_eraseIdx_of_lt l i j h]

/-- `insert_char` preserves the buffer invariant. -/
theorem wf_insert_char (b : TextBuffer) (ch : Char) (h : b.WF) : (b.insert_char ch).WF := by
  obtain ⟨hne, hy, hx⟩ := h
  refine ⟨?_, ?_, ?_⟩
  · simpa [TextBuffer.insert_char] using hne
  · simpa [TextBuffer.insert_char] using hy
  · show b.cursor_x + 1 ≤ ((b.lines.set b.cursor_y
      (b.curLine.take b.cursor_x ++ [ch] ++ b.curLine.drop b.cursor_x)).getD b.cursor_y []).length
    rw [getD_set_self _ _ _ _ hy]
    simp only [List.length_append, List.length_take, List.length_drop, List.length_cons,
      List.length_nil]
    omega

/-- `delete_char` preserves the buffer invariant. -/
theorem wf_delete_char (b : TextBuffer) (h : b.WF) : b.delete_char.WF := by
  obtain ⟨hne, hy, hx⟩ := h
  have hL : 0 < b.lines.length := List.length_pos.mpr hne
  unfold TextBuffer.delete_char
  split_ifs with h1 h2
  · refine ⟨?_, ?_, ?_⟩
    · simpa using hne
    · simpa using hy
    · show b.cursor_x - 1 ≤ ((b.lines.set b.cursor_y
        (b.curLine.take (b.cursor_x - 1) ++ b.curLine.drop b.cursor_x)).getD b.cursor_y []).length
      rw [getD_set_self _ _ _ _ hy]
      simp only [List.length_append, List.length_take, List.length_drop]
      omega
  · have hset : (b.lines.set (b.cursor_y - 1)
        ((b.lines.getD (b.cursor_y - 1) []) ++ b.curLine)).length = b.lines.length := by simp
    have herase : ((b.lines.set (b.cursor_y - 1)
        ((b.lines.getD (b.cursor_y - 1) []) ++ b.curLine)).eraseIdx b.cursor_y).length =
        b.lines.length - 1 := by
      rw [List.length_eraseIdx_of_lt]
      · rw [hset]
      · rw [hset]; exact hy
    refine ⟨?_, ?_, ?_⟩
    · rw [List.eraseIdx_ne_nil]
      left
      rw [hset]
      omega
    · show b.cursor_y - 1 < _
      rw [herase]
      omega
    · show (b.lines.getD (b.cursor_y - 1) []).length ≤ _
      rw [TextBuffer.curLine]
      show _ ≤ (((b.lines.set (b.cursor_y - 1)
        ((b.lines.getD (b.cursor_y - 1) []) ++ b.curLine)).eraseIdx b.cursor_y).getD
          (b.cursor_y - 1) []).length
      rw [getD_eraseIdx_lt _ _ _ _ (by omega), getD_set_self _ _ _ _ (by omega)]
      simp
  · exact ⟨hne, hy, hx⟩

/-- `delete_forward` preserves the buffer invariant. -/
theorem wf_delete_forward (b : TextBuffer) (h : b.WF) : b.delete_forward.WF := by
  obtain ⟨hne, hy, hx⟩ := h
  have hL : 0 < b.lines.length := List.length_pos.mpr hne
  unfold TextBuffer.delete_forward
  split_ifs with h1 h2
  · refine ⟨?_, ?_, ?_⟩
    · simpa using hne
    · simpa using hy
    · show b.cursor_x ≤ ((b.lines.set b.cursor_y
        (b.curLine.take b.cursor_x ++ b.curLine.drop (b.cursor_x + 1))).getD b.cursor_y []).length
      rw [getD_set_self _ _ _ _ hy]
      simp only [List.length_append, List.length_take, List.length_drop]
      omega
  · have hset : (b.lines.set b.cursor_y
        (b.curLine ++ b.lines.getD (b.cursor_y + 1) [])).length = b.lines.length := by simp
    have herase : ((b.lines.set b.cursor_y
        (b.curLine ++ b.lines.getD (b.cursor_y + 1) [])).eraseIdx (b.cursor_y + 1)).length =
        b.lines.length - 1 := by
      rw [List.length_eraseIdx_of_lt]
      · rw [hset]
      · rw [hset]; omega
    refine ⟨?_, ?_, ?_⟩
    · rw [List.eraseIdx_ne_nil]
      left
      rw [hset]
      omega
    · show b.cursor_y < _
      rw [herase]
      omega
    · show b.cursor_x ≤ _
      show _ ≤ (((b.lines.set b.cursor_y
        (b.curLine ++ b.lines.getD (b.cursor_y + 1) [])).eraseIdx (b.cursor_y + 1)).getD
          b.cursor_y []).length
      rw [getD_eraseIdx_lt _ _ _ _ (by omega), getD_set_self _ _ _ _ hy]
      rw [List.length_append]
      omega
  · exact ⟨hne, hy, hx⟩

/-- `insert_newline` preserves the buffer invariant. -/
theorem wf_insert_newline (b : TextBuffer) (h : b.WF) : b.insert_newline.WF := by
  obtain ⟨hne, hy, hx⟩ := h
  have hlen : ((b.lines.set b.cursor_y (b.curLine.take b.cursor_x)).insertIdx (b.cursor_y + 1)
      (b.curLine.drop b.cursor_x)).length = b.lines.length + 1 := by
    rw [List.length_insertIdx _ _ (by simp; omega)]
    simp
  refine ⟨?_, ?_, ?_⟩
  · refine List.length_pos.mp ?_
    show 0 < ((b.lines.set b.cursor_y (b.curLine.take b.cursor_x)).insertIdx (b.cursor_y + 1)
      (b.curLine.drop b.cursor_x)).length
    rw [hlen]
    omega
  · show b.cursor_y + 1 < ((b.lines.set b.cursor_y (b.curLine.take b.cursor_x)).insertIdx
      (b.cursor_y + 1) (b.curLine.drop b.cursor_x)).length
    rw [hlen]
    omega
  · exact Nat.zero_le _

/-- `move_cursor` preserves the buffer invariant, for arbitrary deltas and
viewport arguments. -/
theorem wf_move_cursor (b : TextBuffer) (dx dy mx my : Int) (h : b.WF) :
    (b.move_cursor dx dy mx my).WF := by
  obtain ⟨hne, hy, hx⟩ := h
  have hL : 0 < b.lines.length := List.length_pos.mpr hne
  refine ⟨hne, ?_, ?_⟩
  · show (max 0 (min ((b.lines.length : Int) - 1) ((b.cursor_y : Int) + dy))).toNat <
      b.lines.length
    simp only [Int.max_def, Int.min_def]
    split_ifs <;> omega
  · show (max 0 (min (((b.lines.getD
        ((max 0 (min ((b.lines.length : Int) - 1) ((b.cursor_y : Int) + dy))).toNat) []).length :
          Int)) ((b.cursor_x : Int) + dx))).toNat ≤
      (b.lines.getD
        ((max 0 (min ((b.lines.length : Int) - 1) ((b.cursor_y : Int) + dy))).toNat) []).length
    set K := (b.lines.getD
      ((max 0 (min ((b.lines.length : Int) - 1) ((b.cursor_y : Int) + dy))).toNat) []).length
      with hK
    simp only [Int.max_def, Int.min_def]
    split_ifs <;> omega

/-- `goto_line` preserves the buffer invariant, for an arbitrary (also
out-of-range) target. -/
theorem wf_goto_line (b : TextBuffer) (n my : Int) (h : b.WF) : (b.goto_line n my).WF := by
  obtain ⟨hne, hy, hx⟩ := h
  have hL : 0 < b.lines.length := List.length_pos.mpr hne
  refine ⟨hne, ?_, ?_⟩
  · show (max 0 (min ((b.lines.length : Int) - 1) (n - 1))).toNat < b.lines.length
    simp only [Int.max_def, Int.min_def]
    split_ifs <;> omega
  · exact Nat.zero_le _

/-- `save_file` preserves the buffer invariant (it never touches `lines` or
the cursor). -/
theorem wf_save_file (b : TextBuffer) (fn : Option (List Char)) (wOk : Bool) (h : b.WF) :
    (b.save_file fn wOk).1.WF := by
  obtain ⟨hne, hy, hx⟩ := h
  have key : ∀ bb : TextBuffer, bb.lines = b.lines → bb.cursor_x = b.cursor_x →
      bb.cursor_y = b.cursor_y → bb.WF := by
    intro bb h1 h2 h3
    refine ⟨h1 ▸ hne, ?_, ?_⟩
    · rw [h1, h3]; exact hy
    · show bb.cursor_x ≤ (bb.lines.getD bb.cursor_y []).length
      rw [h1, h2, h3]; exact hx
  unfold TextBuffer.save_file
  cases fn <;> dsimp only <;> split <;> (try split_ifs) <;> exact key _ rfl rfl rfl

/-- A loaded buffer's `lines` is never the empty list, on success or on a
read error. -/
theorem load_lines_ne (b : TextBuffer) (r : Except (List Char) (List Char)) :
    (b.load_file r).lines ≠ [] := by
  cases r with
  | ok content =>
    show (if (if content ≠ [] then pySplitlines content else [[]]) = [] then ([[]] : List (List Char))
      else (if content ≠ [] then pySplitlines content else [[]])) ≠ []
    by_cases hin : (if content ≠ [] then pySplitlines content else [[]]) = []
    · rw [if_pos hin]; simp
    · rw [if_neg hin]; exact hin
  | error msg =>
    show [("Error loading file: ".data ++ msg)] ≠ ([] : List (List Char))
    simp

/-- `load_file` preserves the invariant when the cursor is at the origin, as
it is at every call site (the constructor). -/
theorem wf_load_origin (b : TextBuffer) (r : Except (List Char) (List Char))
    (h0 : b.cursor_y = 0) (hx0 : b.cursor_x = 0) : (b.load_file r).WF := by
  have hne := load_lines_ne b r
  cases r with
  | ok content =>
    refine ⟨load_lines_ne b (Except.ok content), ?_, ?_⟩
    · show b.cursor_y < _
      rw [h0]
      exact List.length_pos.mpr (load_lines_ne b (Except.ok content))
    · show b.cursor_x ≤ _
      rw [hx0]
      exact Nat.zero_le _
  | error msg =>
    refine ⟨load_lines_ne b (Except.error msg), ?_, ?_⟩
    · show b.cursor_y < _
      rw [h0]
      exact List.length_pos.mpr (load_lines_ne b (Except.error msg))
    · show b.cursor_x ≤ _
      rw [hx0]
      exact Nat.zero_le _

/-- C1 counterexample: `load_file` does not re-clamp the cursor, so on a
well-formed buffer with the cursor on line 1 a successful (re)load of a
one-line file leaves `cursor_y = 1 ≥ len(lines) = 1`, breaking the
invariant — the claim's operation list is too broad. -/
theorem buffer_invariant_load_cex :
    TextBuffer.WF ⟨none, [['a'], ['b']], 0, 1, 0, false, "text"⟩ ∧
    ¬ TextBuffer.WF (TextBuffer.load_file ⟨none, [['a'], ['b']], 0, 1, 0, false, "text"⟩
        (Except.ok ['x'])) := by decide

/-- C1 amended: every buffer operation except `load_file` preserves the
well-formedness invariant (for `move_cursor` and `goto_line` with arbitrary
arguments); `load_file` always leaves `lines` non-empty (on success and on
read error) and preserves the invariant when the cursor is at the origin —
which holds at its only call site, the buffer constructor; and deleting the
only character of the only line leaves exactly one empty-string line. -/
theorem buffer_ops_preserve_invariant (b : TextBuffer) (ch : Char) (dx dy mx my n : Int)
    (fn : Option (List Char)) (wOk : Bool) (content msg : List Char)
    (r : Except (List Char) (List Char)) (h : b.WF) :
    (b.insert_char ch).WF ∧ b.delete_char.WF ∧ b.delete_forward.WF ∧ b.insert_newline.WF ∧
    (b.move_cursor dx dy mx my).WF ∧ (b.goto_line n my).WF ∧ (b.save_file fn wOk).1.WF ∧
    (b.load_file (Except.ok content)).lines ≠ [] ∧
    (b.load_file (Except.error msg)).lines ≠ [] ∧
    (b.cursor_y = 0 → b.cursor_x = 0 → (b.load_file r).WF) ∧
    (∀ c : Char, b.lines = [[c]] → b.cursor_y = 0 → b.cursor_x = 1 →
      b.delete_char.lines = [[]]) := by
  refine ⟨wf_insert_char b ch h, wf_delete_char b h, wf_delete_forward b h,
    wf_insert_newline b h, wf_move_cursor b dx dy mx my h, wf_goto_line b n my h,
    wf_save_file b fn wOk h, load_lines_ne b (Except.ok content),
    load_lines_ne b (Except.error msg), fun h0 hx0 => wf_load_origin b r h0 hx0, ?_⟩
  intro c hlines hy0 hx1
  simp [TextBuffer.delete_char, TextBuffer.curLine, hlines, hy0, hx1]

/-- Witness for `buffer_ops_preserve_invariant` at a concrete one-line
buffer: deleting the only character leaves one empty-string line. -/
theorem buffer_ops_preserve_invariant_witness :
    (TextBuffer.delete_char ⟨none, [['q']], 1, 0, 0, false, "text"⟩).lines = [[]] :=
  (buffer_ops_preserve_invariant ⟨none, [['q']], 1, 0, 0, false, "text"⟩ 'b' 0 0 0 0 1 none
      true [] [] (Except.ok []) (by decide)).2.2.2.2.2.2.2.2.2.2 'q' rfl rfl rfl

/-- `splitAux` steps over a non-terminator character, accumulating it. -/
theorem splitAux_cons_nonterm (c : Char) (rest cur : List Char) (hc : isLineTerm c = false) :
    splitAux (c :: rest) cur = splitAux rest (c :: cur) := by
  have hcr : ¬ c = '\r' := by
    intro hcc
    rw [hcc] at hc
    exact absurd hc (by decide)
  rw [splitAux.eq_def]
  dsimp only
  rw [if_neg hcr, if_neg (by simp [hc])]

/-- `splitAux` over terminator-free characters just accumulates them. -/
theorem splitAux_append_free (l : List Char) :
    ∀ (acc rest : List Char), (∀ c ∈ l, isLineTerm c = false) →
      splitAux (l ++ rest) acc = splitAux rest (l.reverse ++ acc) := by
  induction l with
  | nil => intro acc rest _; simp
  | cons c l' ih =>
    intro acc rest h
    have hc : isLineTerm c = false := h c (List.mem_cons_self _ _)
    show splitAux (c :: (l' ++ rest)) acc = _
    rw [splitAux_cons_nonterm c _ _ hc]
    rw [ih (c :: acc) rest (fun d hd => h d (List.mem_cons_of_mem _ hd))]
    simp

/-- A terminator-free string splits into exactly one line. -/
theorem splitAux_free (l acc : List Char) (h : ∀ c ∈ l, isLineTerm c = false) :
    splitAux l acc = [acc.reverse ++ l] := by
  have := splitAux_append_free l acc [] h
  rw [List.append_nil] at this
  rw [this]
  show [(l.reverse ++ acc).reverse] = _
  simp

/-- `splitAux` at a `'\n'` terminator: close the current line; a trailing
newline does not open an empty line. -/
theorem splitAux_cons_lf (rest cur : List Char) :
    splitAux ('\n' :: rest) cur =
      match rest with
      | [] => [cur.reverse]
      | _ :: _ => cur.reverse :: splitAux rest [] := by
  rw [splitAux.eq_def]
  dsimp only
  rw [if_neg (by decide), if_pos (by decide)]

/-- The payload of a saved buffer is empty only for `[]` or `[[]]`. -/
theorem saveContent_ne_nil (lines : List (List Char)) (hne : lines ≠ [])
    (hlast : lines.getLast? ≠ some []) : saveContent lines ≠ [] := by
  cases lines with
  | nil => exact absurd rfl hne
  | cons l rest =>
    cases rest with
    | nil =>
      show l ≠ []
      intro hl
      rw [hl] at hlast
      exact hlast rfl
    | cons l2 rest' =>
      show l ++ '\n' :: saveContent (l2 :: rest') ≠ []
      exact List.append_ne_nil_of_right_ne_nil l (by simp)

/-- Splitting a newline-joined, terminator-free line list recovers the list,
provided the last line is non-empty. -/
theorem split_join (lines : List (List Char))
    (hfree : ∀ l ∈ lines, ∀ c ∈ l, isLineTerm c = false) (hne : lines ≠ [])
    (hlast : lines.getLast? ≠ some []) : pySplitlines (saveContent lines) = lines := by
  induction lines with
  | nil => exact absurd rfl hne
  | cons l rest ih =>
    cases rest with
    | nil =>
      show pySplitlines l = [l]
      have hl : l ≠ [] := by
        intro hl
        rw [hl] at hlast
        exact hlast rfl
      cases hll : l with
      | nil => exact absurd hll hl
      | cons c cs =>
        show splitAux (c :: cs) [] = [c :: cs]
        have := splitAux_free (c :: cs) [] (by rw [← hll]; exact hfree l (List.mem_cons_self _ _))
        simpa using this
    | cons l2 rest' =>
      have hS : saveContent (l2 :: rest') ≠ [] := by
        apply saveContent_ne_nil _ (by simp)
        rw [← List.getLast?_cons_cons (a := l)]
        exact hlast
      have hfree_l : ∀ c ∈ l, isLineTerm c = false := hfree l (List.mem_cons_self _ _)
      have hjoin : saveContent (l :: l2 :: rest') = l ++ '\n' :: saveContent (l2 :: rest') := rfl
      rw [hjoin]
      have hnonempty : l ++ '\n' :: saveContent (l2 :: rest') ≠ [] :=
        List.append_ne_nil_of_right_ne_nil l (by simp)
      have hsplit : pySplitlines (l ++ '\n' :: saveContent (l2 :: rest')) =
          splitAux (l ++ '\n' :: saveContent (l2 :: rest')) [] := by
        cases hcase : l ++ '\n' :: saveContent (l2 :: rest') with
        | nil => exact absurd hcase hnonempty
        | cons x xs => rfl
      rw [hsplit, splitAux_append_free l [] _ hfree_l, List.append_nil, splitAux_cons_lf]
      cases hSc : saveContent (l2 :: rest') with
      | nil => exact absurd hSc hS
      | cons s ss =>
        have ihres : pySplitlines (saveContent (l2 :: rest')) = l2 :: rest' := by
          apply ih (fun m hm => hfree m (List.mem_cons_of_mem _ hm)) (by simp)
          rw [← List.getLast?_cons_cons (a := l)]
          exact hlast
        rw [hSc] at ihres
        show l.reverse.reverse :: splitAux (s :: ss) [] = l :: l2 :: rest'
        rw [List.reverse_reverse]
        exact congrArg _ ihres

/-- C2 counterexample: a buffer whose last line is empty fails the
round-trip.  For `lines = ["a", ""]` (no line-terminator characters in any
line) the saved payload is `"a\n"`, which `splitlines` reads back as
`["a"]` — the trailing empty line is lost. -/
theorem save_load_roundtrip_cex :
    (∀ l ∈ ([['a'], []] : List (List Char)), ∀ c ∈ l, isLineTerm c = false) ∧
    saveContent [['a'], []] = "a\n".data ∧
    (TextBuffer.load_file ⟨none, [['a'], []], 0, 0, 0, false, "text"⟩
        (Except.ok (saveContent [['a'], []]))).lines = [['a']] ∧
    ([['a']] : List (List Char)) ≠ [['a'], []] := by decide

/-- C2 amended: saving then loading reproduces `lines` exactly for every
terminator-free buffer whose last line is non-empty (or which is the single
empty line); a trailing empty line is the one shape the round-trip loses. -/
theorem save_load_roundtrip (b b' : TextBuffer)
    (hfree : ∀ l ∈ b.lines, ∀ c ∈ l, isLineTerm c = false) (hne : b.lines ≠ [])
    (hlast : b.lines = [[]] ∨ b.lines.getLast? ≠ some []) :
    (b'.load_file (Except.ok (saveContent b.lines))).lines = b.lines := by
  rcases hlast with hsingle | hlast
  · rw [hsingle]
    rfl
  · have hcontent : saveContent b.lines ≠ [] := saveContent_ne_nil b.lines hne hlast
    have hsplit : pySplitlines (saveContent b.lines) = b.lines :=
      split_join b.lines hfree hne hlast
    show (if (if saveContent b.lines ≠ [] then pySplitlines (saveContent b.lines) else [[]]) = []
        then ([[]] : List (List Char))
        else (if saveContent b.lines ≠ [] then pySplitlines (saveContent b.lines) else [[]])) =
      b.lines
    rw [if_pos hcontent, hsplit, if_neg hne]

/-- Witness for `save_load_roundtrip` on a concrete two-line buffer. -/
theorem save_load_roundtrip_witness :
    (TextBuffer.load_file ⟨none, [[]], 0, 0, 0, false, "text"⟩
        (Except.ok (saveContent [['h', 'i'], ['y', 'o']]))).lines = [['h', 'i'], ['y', 'o']] :=
  save_load_roundtrip ⟨none, [['h', 'i'], ['y', 'o']], 0, 0, 0, false, "text"⟩
    ⟨none, [[]], 0, 0, 0, false, "text"⟩ (by decide) (by decide) (Or.inr (by decide))

/-- On a strictly sorted list, a filter constrained from `pos` whose first
hit is `p` is `p` followed by the same filter constrained from `p + 1`. -/
theorem sorted_filter_head (L : List Nat) (P : Nat → Bool) :
    ∀ (pos p : Nat), L.Pairwise (· < ·) →
      (L.filter (fun i => decide (pos ≤ i) && P i)).head? = some p →
      L.filter (fun i => decide (pos ≤ i) && P i) =
        p :: L.filter (fun i => decide (p + 1 ≤ i) && P i) := by
  induction L with
  | nil => intro pos p _ hh; simp at hh
  | cons a L' ih =>
    intro pos p hL hh
    obtain ⟨ha, hL'⟩ := List.pairwise_cons.mp hL
    rw [List.filter_cons] at hh ⊢
    by_cases hcond : (decide (pos ≤ a) && P a) = true
    · rw [if_pos hcond] at hh ⊢
      rw [List.head?_cons, Option.some.injEq] at hh
      subst hh
      have hpa : pos ≤ a ∧ P a = true := by simpa using hcond
      rw [List.filter_cons, if_neg (by simp)]
      have heq : L'.filter (fun i => decide (pos ≤ i) && P i) =
          L'.filter (fun i => decide (a + 1 ≤ i) && P i) := by
        apply List.filter_congr
        intro b hb
        have hab : a < b := ha b hb
        have h1 : decide (pos ≤ b) = true := by simp; omega
        have h2 : decide (a + 1 ≤ b) = true := by simp; omega
        rw [h1, h2]
      rw [heq]
    · rw [if_neg hcond] at hh ⊢
      have hpmem : p ∈ L'.filter (fun i => decide (pos ≤ i) && P i) := by
        obtain ⟨ys, hys⟩ := List.head?_eq_some_iff.mp hh
        rw [hys]
        exact List.mem_cons_self _ _
      have hpL' : p ∈ L' := (List.mem_filter.mp hpmem).1
      have hap : a < p := ha p hpL'
      rw [List.filter_cons, if_neg ?hguard]
      case hguard =>
        simp only [Bool.and_eq_true, decide_eq_true_eq, not_and]
        intro hle
        exact absurd hle (by omega)
      exact ih pos p hL' hh

/-- The scan loop, given enough fuel, collects exactly the occurrence
offsets at or after its start position, in increasing order. -/
theorem scanAux_eq (s pat : List Char) :
    ∀ (fuel pos : Nat), s.length + 1 ≤ fuel + pos →
      scanAux s pat fuel pos =
        (List.range (s.length + 1)).filter (fun i => decide (pos ≤ i) && occAt s pat i) := by
  intro fuel
  induction fuel with
  | zero =>
    intro pos h
    show ([] : List Nat) = _
    symm
    rw [List.filter_eq_nil_iff]
    intro i hi
    have : i < s.length + 1 := List.mem_range.mp hi
    simp
    omega
  | succ fuel ih =>
    intro pos h
    show (match findFrom s pat pos with
      | none => []
      | some p => p :: scanAux s pat fuel (p + 1)) = _
    cases hf : findFrom s pat pos with
    | none =>
      show ([] : List Nat) = _
      symm
      exact List.head?_eq_none_iff.mp hf
    | some p =>
      show p :: scanAux s pat fuel (p + 1) =
        (List.range (s.length + 1)).filter (fun i => decide (pos ≤ i) && occAt s pat i)
      have hhead := sorted_filter_head (List.range (s.length + 1)) (occAt s pat) pos p
        (List.pairwise_lt_range _) hf
      have hppos : pos ≤ p := by
        have hpmem : p ∈ (List.range (s.length + 1)).filter
            (fun i => decide (pos ≤ i) && occAt s pat i) := by
          rw [hhead]; exact List.mem_cons_self _ _
        have := (List.mem_filter.mp hpmem).2
        simp at this
        exact this.1
      rw [hhead, ih (p + 1) (by omega)]

/-- The per-line scan equals the full occurrence enumeration. -/
theorem scanLine_eq (s pat : List Char) : scanLine s pat = occurrences s pat := by
  unfold scanLine occurrences
  rw [scanAux_eq s pat (s.length + 1) 0 (by omega)]
  apply List.filter_congr
  intro i _
  simp

/-- Occurrence offsets are strictly increasing. -/
theorem occurrences_pairwise (s pat : List Char) : (occurrences s pat).Pairwise (· < ·) :=
  List.Pairwise.sublist (List.filter_sublist _) (List.pairwise_lt_range _)

/-- The enumerate loop of `search` equals the spec-side per-line occurrence
enumeration, for any starting line index. -/
theorem searchFrom_eq_spec (pat : List Char) (cs : Bool) (qlen : Nat) :
    ∀ (ls : List (List Char)) (n : Nat),
      searchFrom pat cs qlen n ls =
        (List.range ls.length).flatMap (fun i =>
          (occurrences (if cs then ls.getD i [] else (ls.getD i []).map pyLower) pat).map
            (fun p => (n + i, p, p + qlen))) := by
  intro ls
  induction ls with
  | nil => intro n; rfl
  | cons l ls' ih =>
    intro n
    show (scanLine (if cs then l else l.map pyLower) pat).map (fun p => (n, p, p + qlen)) ++
        searchFrom pat cs qlen (n + 1) ls' = _
    rw [ih (n + 1)]
    rw [List.length_cons, List.range_succ_eq_map, List.flatMap_cons, List.flatMap_map]
    rw [scanLine_eq]
    congr 1
    apply List.flatMap_congr
    intro i _
    rw [show n + 1 + i = n + (i + 1) from by omega]
    simp

/-- Matches produced for lines from index `n` on carry line numbers `≥ n`. -/
theorem searchFrom_mem_line (pat : List Char) (cs : Bool) (qlen : Nat) :
    ∀ (ls : List (List Char)) (n : Nat) (x : Nat × Nat × Nat),
      x ∈ searchFrom pat cs qlen n ls → n ≤ x.1 := by
  intro ls
  induction ls with
  | nil => intro n x hx; simp [searchFrom] at hx
  | cons l ls' ih =>
    intro n x hx
    rw [show searchFrom pat cs qlen n (l :: ls') =
      (scanLine (if cs then l else l.map pyLower) pat).map (fun p => (n, p, p + qlen)) ++
        searchFrom pat cs qlen (n + 1) ls' from rfl] at hx
    rcases List.mem_append.mp hx with hx1 | hx2
    · obtain ⟨p, -, hp⟩ := List.mem_map.mp hx1
      rw [← hp]
    · have := ih (n + 1) x hx2
      omega

/-- The match list is strictly sorted in document order. -/
theorem searchFrom_pairwise (pat : List Char) (cs : Bool) (qlen : Nat) :
    ∀ (ls : List (List Char)) (n : Nat), (searchFrom pat cs qlen n ls).Pairwise docLt := by
  intro ls
  induction ls with
  | nil => intro n; simp [searchFrom]
  | cons l ls' ih =>
    intro n
    show ((scanLine (if cs then l else l.map pyLower) pat).map (fun p => (n, p, p + qlen)) ++
        searchFrom pat cs qlen (n + 1) ls').Pairwise docLt
    rw [List.pairwise_append]
    refine ⟨?_, ih (n + 1), ?_⟩
    · rw [List.pairwise_map]
      apply List.Pairwise.imp ?_ (by rw [scanLine_eq]; exact occurrences_pairwise _ _)
      intro p q hpq
      exact Or.inr ⟨rfl, hpq⟩
    · intro x hx y hy
      obtain ⟨p, -, hp⟩ := List.mem_map.mp hx
      have hyn : n + 1 ≤ y.1 := searchFrom_mem_line pat cs qlen ls' (n + 1) y hy
      left
      rw [← hp]
      show n < y.1
      omega

/-- The rebuilt match list equals the spec-side occurrence enumeration. -/
theorem searchMatches_eq_spec (lines : List (List Char)) (q : List Char) (cs : Bool)
    (hq : q ≠ []) : searchMatches lines q cs = searchSpec lines q cs := by
  unfold searchMatches searchSpec
  rw [if_neg hq, if_neg hq]
  rw [searchFrom_eq_spec _ cs q.length lines 0]
  apply List.flatMap_congr
  intro i _
  simp

/-- C4: `search` finds exactly the (possibly overlapping) occurrences of the
query — for a non-empty query the rebuilt match list is precisely the
document-order enumeration of all occurrence triples `(line, start,
start + len(query))`, strictly sorted by `(line, start)`; an empty query
yields an empty match list. -/
theorem search_finds_all_occurrences (lines : List (List Char)) (q : List Char) (cs : Bool) :
    searchMatches lines [] cs = [] ∧
    (q ≠ [] → searchMatches lines q cs = searchSpec lines q cs ∧
      (searchMatches lines q cs).Pairwise docLt) := by
  constructor
  · rfl
  · intro hq
    constructor
    · exact searchMatches_eq_spec lines q cs hq
    · unfold searchMatches
      rw [if_neg hq]
      exact searchFrom_pairwise _ cs q.length lines 0

/-- Witness for `search_finds_all_occurrences`: `"aa"` in `"aaa"` has the two
overlapping occurrences `(0,0,2)` and `(0,1,3)`. -/
theorem search_finds_all_occurrences_witness :
    searchMatches [['a', 'a', 'a']] ['a', 'a'] true = searchSpec [['a', 'a', 'a']] ['a', 'a'] true ∧
    searchMatches [['a', 'a', 'a']] ['a', 'a'] true = [(0, 0, 2), (0, 1, 3)] :=
  ⟨((search_finds_all_occurrences [['a', 'a', 'a']] ['a', 'a'] true).2 (by decide)).1, by decide⟩

/-- The `next_match` loop is `find?` paired with `findIdx`, offset by the
running enumeration index. -/
theorem nmAux_eq (cl cc : Nat) :
    ∀ (ms : List (Nat × Nat × Nat)) (i : Nat),
      nmAux cl cc i ms =
        (match ms.find? (strictAfter cl cc) with
         | some m => some (i + ms.findIdx (strictAfter cl cc), m.1, m.2.1)
         | none => none) := by
  intro ms
  induction ms with
  | nil => intro i; rfl
  | cons m ms' ih =>
    intro i
    by_cases hm : strictAfter cl cc m = true
    · show (if strictAfter cl cc m = true then some (i, m.1, m.2.1)
        else nmAux cl cc (i + 1) ms') = _
      rw [if_pos hm, List.find?_cons_of_pos _ hm, List.findIdx_cons]
      simp [hm]
    · show (if strictAfter cl cc m = true then some (i, m.1, m.2.1)
        else nmAux cl cc (i + 1) ms') = _
      rw [if_neg hm, List.find?_cons_of_neg _ hm, List.findIdx_cons]
      rw [ih (i + 1)]
      cases hf : ms'.find? (strictAfter cl cc) with
      | none => rfl
      | some m' =>
        simp [hm]
        omega

/-- A successful `find?` is the element at index `findIdx`. -/
theorem find?_getElem_findIdx {α : Type} (P : α → Bool) :
    ∀ (l : List α) (m : α), l.find? P = some m → l[l.findIdx P]? = some m := by
  intro l
  induction l with
  | nil => intro m hm; simp at hm
  | cons a l' ih =>
    intro m hm
    by_cases ha : P a = true
    · rw [List.find?_cons_of_pos _ ha] at hm
      rw [List.findIdx_cons]
      simp [ha, ← hm]
    · rw [List.find?_cons_of_neg _ ha] at hm
      rw [List.findIdx_cons]
      simp only [ha, cond_false]
      rw [List.getElem?_cons_succ]
      exact ih m hm

/-- On a document-order-sorted list, the first `find?` hit is the
document-order-least hit. -/
theorem find?_min_of_pairwise (cl cc : Nat) :
    ∀ (ms : List (Nat × Nat × Nat)), ms.Pairwise docLt →
      ∀ m, ms.find? (strictAfter cl cc) = some m →
        ∀ m' ∈ ms, strictAfter cl cc m' = true → docLt m m' ∨ m = m' := by
  intro ms
  induction ms with
  | nil => intro _ m hm; simp at hm
  | cons a ms' ih =>
    intro hp m hm m' hm' hsa
    obtain ⟨ha, hp'⟩ := List.pairwise_cons.mp hp
    by_cases hpa : strictAfter cl cc a = true
    · rw [List.find?_cons_of_pos _ hpa, Option.some.injEq] at hm
      subst hm
      rcases List.mem_cons.mp hm' with rfl | hmem
      · exact Or.inr rfl
      · exact Or.inl (ha m' hmem)
    · rw [List.find?_cons_of_neg _ hpa] at hm
      rcases List.mem_cons.mp hm' with rfl | hmem
      · exact absurd hsa hpa
      · exact ih hp' m hm m' hmem hsa

/-- C5: `next_match` returns `none` exactly when the match list is empty;
otherwise it returns the first match strictly after `(cl, cc)` — with the
current-match index set to that match's position in the list — or wraps to
the head match (index 0) when no later match exists; on a document-ordered
list the returned match is the document-order-least one strictly after the
position.  Final conjuncts: the spec's concrete example. -/
theorem next_match_spec (sm : SearchManager) (cl cc : Nat) :
    ((sm.next_match cl cc).2 = none ↔ sm.matches' = []) ∧
    (sm.matches' = [] → sm.next_match cl cc = (sm, none)) ∧
    (sm.matches' ≠ [] →
      (match sm.matches'.find? (strictAfter cl cc) with
       | some m =>
         (sm.next_match cl cc).2 = some (m.1, m.2.1) ∧
         (sm.next_match cl cc).1.current_match =
           ((sm.matches'.findIdx (strictAfter cl cc) : Nat) : Int) ∧
         sm.matches'[sm.matches'.findIdx (strictAfter cl cc)]? = some m ∧
         (sm.matches'.Pairwise docLt →
           ∀ m' ∈ sm.matches', strictAfter cl cc m' = true → docLt m m' ∨ m = m')
       | none =>
         (sm.next_match cl cc).2 = sm.matches'.head?.map (fun m => (m.1, m.2.1)) ∧
         (sm.next_match cl cc).1.current_match = 0)) ∧
    ((SearchManager.search SearchManager.init ["foo bar foo".data] "foo".data false).matches' =
      [(0, 0, 3), (0, 8, 11)] ∧
      (SearchManager.next_match ⟨"foo".data, [(0, 0, 3), (0, 8, 11)], -1, false⟩ 0 8).2 =
        some (0, 0)) := by
  refine ⟨?_, ?_, ?_, by decide, by decide⟩
  · unfold SearchManager.next_match
    cases hms : sm.matches' with
    | nil => simp
    | cons m0 rest =>
      rw [nmAux_eq cl cc (m0 :: rest) 0]
      cases hf : (m0 :: rest).find? (strictAfter cl cc) <;> simp
  · intro hms
    unfold SearchManager.next_match
    rw [hms]
  · intro hms
    cases hms' : sm.matches' with
    | nil => exact absurd hms' hms
    | cons m0 rest =>
      unfold SearchManager.next_match
      rw [hms']
      rw [nmAux_eq cl cc (m0 :: rest) 0]
      cases hf : (m0 :: rest).find? (strictAfter cl cc) with
      | none => exact ⟨rfl, rfl⟩
      | some m =>
        refine ⟨rfl, by simp, ?_, ?_⟩
        · exact find?_getElem_findIdx (strictAfter cl cc) (m0 :: rest) m hf
        · intro hp
          exact find?_min_of_pairwise cl cc (m0 :: rest) hp m hf

/-- Witness for `next_match_spec`: the spec's wrap example, extracted by
applying the theorem at the concrete manager. -/
theorem next_match_spec_witness :
    (SearchManager.next_match ⟨"foo".data, [(0, 0, 3), (0, 8, 11)], -1, false⟩ 0 8).2 =
      some (0, 0) ∧
    (SearchManager.next_match ⟨"foo".data, [(0, 0, 3), (0, 8, 11)], -1, false⟩ 0 8).1.current_match
      = 0 := by
  have h := (next_match_spec ⟨"foo".data, [(0, 0, 3), (0, 8, 11)], -1, false⟩ 0 8).2.2.1
    (by decide)
  rw [show ([(0, 0, 3), (0, 8, 11)] : List (Nat × Nat × Nat)).find? (strictAfter 0 8) = none
    from by decide] at h
  exact ⟨h.1.trans (by decide), h.2⟩

/-- Every match of `search` lies inside the buffer: its line index is in
range and its start leaves room for the query on that line. -/
theorem search_mem_bounds (lines : List (List Char)) (q : List Char) (cs : Bool) :
    ∀ x ∈ searchMatches lines q cs,
      x.1 < lines.length ∧ x.2.1 + q.length ≤ (lines.getD x.1 []).length := by
  intro x hx
  by_cases hq : q = []
  · rw [hq] at hx
    simp [searchMatches] at hx
  · rw [searchMatches_eq_spec lines q cs hq] at hx
    unfold searchSpec at hx
    rw [if_neg hq] at hx
    obtain ⟨i, hi, hmem⟩ := List.mem_flatMap.mp hx
    obtain ⟨p, hp, heq⟩ := List.mem_map.mp hmem
    have hirange : i < lines.length := List.mem_range.mp hi
    have hocc := (List.mem_filter.mp hp).2
    rw [occAt, Bool.and_eq_true, decide_eq_true_eq] at hocc
    obtain ⟨hlen, -⟩ := hocc
    subst heq
    refine ⟨hirange, ?_⟩
    rcases cs with _ | _ <;> simp at hlen ⊢ <;> omega

/-- `move_cursor(0, 0, …)` fixes an in-range cursor position. -/
theorem move_cursor_zero_fix (b : TextBuffer) (mx my : Int)
    (hy : b.cursor_y < b.lines.length)
    (hx : b.cursor_x ≤ (b.lines.getD b.cursor_y []).length) :
    (b.move_cursor 0 0 mx my).cursor_y = b.cursor_y ∧
    (b.move_cursor 0 0 mx my).cursor_x = b.cursor_x := by
  have hNY : (max 0 (min ((b.lines.length : Int) - 1) ((b.cursor_y : Int) + 0))).toNat =
      b.cursor_y := by
    simp only [Int.max_def, Int.min_def]
    split_ifs <;> omega
  constructor
  · exact hNY
  · show (max 0 (min (((b.lines.getD
        ((max 0 (min ((b.lines.length : Int) - 1) ((b.cursor_y : Int) + 0))).toNat) []).length :
          Int)) ((b.cursor_x : Int) + 0))).toNat = b.cursor_x
    rw [hNY]
    simp only [Int.max_def, Int.min_def]
    split_ifs <;> omega

/-- C6 counterexample: for the buffer `["foo foo"]` with the cursor at
`(0, 0)` — where a match starts exactly at the cursor — committing the
search `"foo"` jumps to `(0, 4)`, not to the match at the cursor position. -/
theorem search_commit_skips_cursor_match_cex :
    searchMatches ["foo foo".data] "foo".data false = [(0, 0, 3), (0, 4, 7)] ∧
    (handle_search_commit SearchManager.init
        ⟨none, ["foo foo".data], 0, 0, 0, false, "text"⟩ "foo".data 80 24).2.cursor_y = 0 ∧
    (handle_search_commit SearchManager.init
        ⟨none, ["foo foo".data], 0, 0, 0, false, "text"⟩ "foo".data 80 24).2.cursor_x = 4 ∧
    (4 : Nat) ≠ 0 := by decide

/-- C6 amended: committing a non-empty query with at least one match moves
the cursor to the first match STRICTLY after the cursor position, wrapping
to the first match of the buffer when none follows; a match starting exactly
at the cursor is skipped (it can only be reached via the wrap). -/
theorem search_commit_jumps (sm : SearchManager) (b : TextBuffer) (q : List Char) (w ht : Int)
    (hq : q ≠ []) (hm : searchMatches b.lines q false ≠ []) :
    ∃ r, nextFromCursor (searchMatches b.lines q false) b.cursor_y b.cursor_x = some r ∧
      (handle_search_commit sm b q w ht).2.cursor_y = r.1 ∧
      (handle_search_commit sm b q w ht).2.cursor_x = r.2 := by
  unfold handle_search_commit
  rw [if_pos hq]
  have hsm1 : (sm.search b.lines q false).matches' = searchMatches b.lines q false := rfl
  rw [if_pos (by rw [hsm1]; exact hm)]
  cases hms : searchMatches b.lines q false with
  | nil => exact absurd hms hm
  | cons m0 rest =>
    have hnext : (sm.search b.lines q false).next_match b.cursor_y b.cursor_x =
        (match (m0 :: rest).find? (strictAfter b.cursor_y b.cursor_x) with
         | some m => ({ sm.search b.lines q false with
             current_match := (((m0 :: rest).findIdx (strictAfter b.cursor_y b.cursor_x) : Nat) :
               Int) }, some (m.1, m.2.1))
         | none => ({ sm.search b.lines q false with current_match := 0 },
             some (m0.1, m0.2.1))) := by
      unfold SearchManager.next_match
      rw [show (sm.search b.lines q false).matches' = m0 :: rest from hsm1.trans hms]
      rw [nmAux_eq b.cursor_y b.cursor_x (m0 :: rest) 0]
      cases hf : (m0 :: rest).find? (strictAfter b.cursor_y b.cursor_x) <;> simp <;>
        exact (hsm1.trans hms).symm
    rw [hnext]
    cases hf : (m0 :: rest).find? (strictAfter b.cursor_y b.cursor_x) with
    | some m =>
      have hmmem : m ∈ m0 :: rest := List.mem_of_find?_eq_some hf
      have hbounds := search_mem_bounds b.lines q false m (by rw [hms]; exact hmmem)
      have hfix := move_cursor_zero_fix
        { b with cursor_y := m.1, cursor_x := m.2.1 } w (ht - 3) hbounds.1
        (by show m.2.1 ≤ (b.lines.getD m.1 []).length; omega)
      refine ⟨(m.1, m.2.1), ?_, ?_, ?_⟩
      · unfold nextFromCursor
        rw [hf]
      · exact hfix.1
      · exact hfix.2
    | none =>
      have hmmem : m0 ∈ m0 :: rest := List.mem_cons_self _ _
      have hbounds := search_mem_bounds b.lines q false m0 (by rw [hms]; exact hmmem)
      have hfix := move_cursor_zero_fix
        { b with cursor_y := m0.1, cursor_x := m0.2.1 } w (ht - 3) hbounds.1
        (by show m0.2.1 ≤ (b.lines.getD m0.1 []).length; omega)
      refine ⟨(m0.1, m0.2.1), ?_, ?_, ?_⟩
      · unfold nextFromCursor
        rw [hf]
        rfl
      · exact hfix.1
      · exact hfix.2

/-- Witness for `search_commit_jumps`: searching `"foo"` in `"ab foo"` from
`(0, 0)` lands on the match at column 3. -/
theorem search_commit_jumps_witness :
    (handle_search_commit SearchManager.init ⟨none, ["ab foo".data], 0, 0, 0, false, "text"⟩
        "foo".data 80 24).2.cursor_y = 0 ∧
    (handle_search_commit SearchManager.init ⟨none, ["ab foo".data], 0, 0, 0, false, "text"⟩
        "foo".data 80 24).2.cursor_x = 3 := by
  obtain ⟨r, h1, hy, hx⟩ := search_commit_jumps SearchManager.init
    ⟨none, ["ab foo".data], 0, 0, 0, false, "text"⟩ "foo".data 80 24 (by decide) (by decide)
  have h2 : nextFromCursor (searchMatches ["ab foo".data] "foo".data false) 0 0 =
      some (0, 3) := by decide
  have hr : r = (0, 3) := Option.some.inj (h1.symm.trans h2)
  rw [hy, hx, hr]
  exact ⟨rfl, rfl⟩

/-- Splitting a `drop` at an intermediate offset. -/
theorem drop_split {α : Type} (l : List α) (pos s : Nat) (h1 : pos ≤ s) (h2 : pos ≤ l.length) :
    l.drop pos = (l.take s).drop pos ++ l.drop s := by
  conv_lhs => rw [← List.take_append_drop s l]
  rw [List.drop_append_of_le_length (by rw [List.length_take]; omega)]

/-- The result-building loop emits slices that concatenate to the tail of
the line from `pos`, for any chained valid span list. -/
theorem buildResult_concat (line : List Char) :
    ∀ (spans : List Span) (pos : Nat), pos ≤ line.length →
      ChainValid line.length pos spans →
      concatTexts (buildResult line pos spans) = line.drop pos := by
  intro spans
  induction spans with
  | nil =>
    intro pos hpos _
    show concatTexts (if pos < line.length then [(line.drop pos, 0)] else []) = line.drop pos
    split_ifs with hlt
    · simp [concatTexts]
    · rw [List.drop_eq_nil_iff.mpr (by omega)]
      simp [concatTexts]
  | cons m rest ih =>
    intro pos hpos hchain
    obtain ⟨hs, hse, hel, hrest⟩ := hchain
    obtain ⟨s, e, c⟩ := m
    simp only at hs hse hel hrest
    show concatTexts ((if pos < s then [((line.take s).drop pos, 0)] else []) ++
      ((line.take e).drop s, c) :: buildResult line e rest) = line.drop pos
    have hIH := ih e hel hrest
    have h2 : line.drop s = (line.take e).drop s ++ line.drop e :=
      drop_split line s e hse (by omega)
    simp only [concatTexts, List.map_append, List.flatten_append, List.map_cons,
      List.flatten_cons]
    rw [show (List.map Prod.fst (buildResult line e rest)).flatten = List.drop e line from hIH]
    split_ifs with hps
    · have h1 : line.drop pos = (line.take s).drop pos ++ line.drop s :=
        drop_split line pos s (by omega) hpos
    
      rw [h1, h2]
      simp
    · have hpe : pos = s := by omega
      subst hpe
      rw [h2]
      simp

/-- Appending a span that starts after every accumulated end preserves the
chain. -/
theorem chain_snoc (len : Nat) (m : Span) :
    ∀ (acc : List Span) (pos : Nat), ChainValid len pos acc → pos ≤ m.1 →
      (∀ f ∈ acc, f.2.1 ≤ m.1) → m.1 ≤ m.2.1 → m.2.1 ≤ len →
      ChainValid len pos (acc ++ [m]) := by
  intro acc
  induction acc with
  | nil =>
    intro pos _ hpos _ hme hml
    exact ⟨hpos, hme, hml, trivial⟩
  | cons f acc' ih =>
    intro pos hchain hpos hends hme hml
    obtain ⟨h1, h2, h3, h4⟩ := hchain
    exact ⟨h1, h2, h3, ih f.2.1 h4 (hends f (List.mem_cons_self _ _))
      (fun g hg => hends g (List.mem_cons_of_mem _ hg)) hme hml⟩

/-- The overlap-filter loop of `highlight_line` produces a chained valid
span list when fed sorted valid spans. -/
theorem filterGo_chain (len : Nat) :
    ∀ (rest acc : List Span),
      (∀ m ∈ rest, m.1 ≤ m.2.1 ∧ m.2.1 ≤ len) →
      rest.Pairwise (fun a b => a.1 ≤ b.1) →
      (∀ f ∈ acc, ∀ m ∈ rest, f.1 ≤ m.1) →
      ChainValid len 0 acc →
      ChainValid len 0 (filterGo acc rest) := by
  intro rest
  induction rest with
  | nil => intro acc _ _ _ hacc; exact hacc
  | cons m rest' ih =>
    intro acc hvalid hpair hcross hacc
    obtain ⟨hm, hpair'⟩ := List.pairwise_cons.mp hpair
    show ChainValid len 0 (if keepSpan acc m then filterGo (acc ++ [m]) rest'
      else filterGo acc rest')
    split_ifs with hkeep
    · have hnooverlap : ∀ f ∈ acc, ¬(f.1 ≤ m.1 ∧ m.1 < f.2.1) := by
        intro f hf
        rw [keepSpan, Bool.not_eq_true', List.any_eq_false] at hkeep
        have := hkeep f hf
        simp at this
        intro ⟨ha, hb⟩
        exact absurd hb (by omega)
      have hends : ∀ f ∈ acc, f.2.1 ≤ m.1 := by
        intro f hf
        have hstart : f.1 ≤ m.1 := hcross f hf m (List.mem_cons_self _ _)
        have := hnooverlap f hf
        omega
      apply ih (acc ++ [m])
      · exact fun x hx => hvalid x (List.mem_cons_of_mem _ hx)
      · exact hpair'
      · intro f hf b hb
        rcases List.mem_append.mp hf with hf1 | hf2
        · exact Nat.le_trans (hcross f hf1 m (List.mem_cons_self _ _)) (hm b hb)
        · rw [List.mem_singleton.mp hf2]
          exact hm b hb
      · exact chain_snoc len m acc 0 hacc (Nat.zero_le _) hends
          (hvalid m (List.mem_cons_self _ _)).1 (hvalid m (List.mem_cons_self _ _)).2
    · apply ih acc
      · exact fun x hx => hvalid x (List.mem_cons_of_mem _ hx)
      · exact hpair'
      · exact fun f hf b hb => hcross f hf b (List.mem_cons_of_mem _ hb)
      · exact hacc

/-- C3: for every line, file type and any span set collected from the regex
engine (spans lie within the line), the slices returned by `highlight_line`
concatenate to exactly the input line — no gaps, no duplication, no
overlap; and a file type without a rule set yields the whole line as the
single untagged (style 0) slice. -/
theorem highlight_line_covers (line : List Char) (ft : String) (ms : List Span)
    (hvalid : ∀ m ∈ ms, m.1 ≤ m.2.1 ∧ m.2.1 ≤ line.length) :
    concatTexts (highlight_line line ft ms) = line ∧
    (hasRules ft = false → highlight_line line ft ms = [(line, 0)]) := by
  constructor
  · show concatTexts (if hasRules ft then
        (if buildResult line 0 (filterSpans (sortSpans ms)) = [] then [(line, 0)]
          else buildResult line 0 (filterSpans (sortSpans ms)))
      else [(line, 0)]) = line
    split_ifs with hr hnil
    · simp [concatTexts]
    · have hsorted : (sortSpans ms).Pairwise (fun a b => a.1 ≤ b.1) :=
        List.sorted_insertionSort (fun a b : Span => a.1 ≤ b.1) ms
      have hvalid' : ∀ m ∈ sortSpans ms, m.1 ≤ m.2.1 ∧ m.2.1 ≤ line.length := by
        intro m hm
        exact hvalid m ((List.perm_insertionSort (fun a b : Span => a.1 ≤ b.1) ms).mem_iff.mp hm)
      have hchain := filterGo_chain line.length (sortSpans ms) [] hvalid' hsorted
        (by intro f hf; simp at hf) trivial
      have := buildResult_concat line (filterSpans (sortSpans ms)) 0 (Nat.zero_le _) hchain
      rw [List.drop_zero] at this
      exact this
    · simp [concatTexts]
  · intro h
    unfold highlight_line
    rw [if_neg (by simp [h])]

/-- Witness for `highlight_line_covers` on a concrete line with overlapping
spans from several rules. -/
theorem highlight_line_covers_witness :
    concatTexts (highlight_line "abcd".data "python" [(1, 3, 2), (2, 4, 3), (0, 1, 4)]) =
      "abcd".data :=
  (highlight_line_covers "abcd".data "python" [(1, 3, 2), (2, 4, 3), (0, 1, 4)] (by decide)).1
